import Mathlib

/-!
Verification of the retrieval core of the doc-qa-engine repository:
the chunker (`src/backend/text_chunker.py`) and the vector store with
cosine-similarity search (`src/backend/simple_vector_store.py`).

The Python code is shallowly embedded: the chunking `while` loops become
fuel-indexed recursive functions (a `none` result means the fuel ran out,
which is how non-termination of the source loop is expressed), the
tiktoken encoder is an abstract `Tokenizer` bundle carrying the byte-level
BPE decode contract the chunker relies on, floats become exact numbers
(`ℚ` for stored vector entries, `ℝ` for similarity scores, since a cosine
score involves a square root), and the process-global store registry plus
the storage directory become an explicit `GlobalState` record threaded
through the operations.
-/

/-- A chunk of source text with positional metadata: the dict
`{"text", "chunk_index", "start_char", "end_char"}` built by
`chunk_text` in `text_chunker.py`. -/
structure Chunk where
  text : String
  chunk_index : Nat
  start_char : Nat
  end_char : Nat
deriving DecidableEq, Repr

/-- Abstract interface for the external `tiktoken` encoding
(`cl100k_base`) used by `chunk_text`.  `encode` maps text to a token
sequence and `decode` maps tokens back to text.  The property fields
state the byte-level BPE contract: decoding a concatenation concatenates
the decodings, a nonempty token sequence decodes to nonempty text, and
decoding inverts encoding. -/
structure Tokenizer (τ : Type) where
  encode : String → List τ
  decode : List τ → String
  decode_append : ∀ a b : List τ, decode (a ++ b) = decode a ++ decode b
  decode_ne : ∀ ts : List τ, ts ≠ [] → decode ts ≠ ""
  decode_encode : ∀ s : String, decode (encode s) = s

/-- `CHUNK_SIZE_CHARS` in `text_chunker.py`. -/
def CHUNK_SIZE_CHARS : Nat := 4000

/-- `CHUNK_OVERLAP_CHARS` in `text_chunker.py`. -/
def CHUNK_OVERLAP_CHARS : Nat := 500

/-- Python code-point slicing `text[i:e]` for `0 ≤ i ≤ e`. -/
def pySub (text : String) (i e : Nat) : String :=
  String.mk ((text.data.drop i).take (e - i))

/-- Python `text.strip()`: drop whitespace from both ends. -/
def pyStrip (s : String) : String :=
  String.mk
    (((s.data.dropWhile Char.isWhitespace).reverse.dropWhile
        Char.isWhitespace).reverse)

/-- The token-mode `while i < len(tokens)` loop of `chunk_text`
(lines 45-71 of `text_chunker.py`), with the window start `i`, the
running `chunk_index`, and explicit fuel.  Each iteration emits the
chunk decoded from `tokens[i:i+chunk_size]`, with `start_char` the
length of the decoded prefix `tokens[:i]`; then `i += chunk_size -
overlap`, the loop breaks once `i >= len(tokens)`, and the source's
`if i == 0: i = chunk_size - overlap` safety check is kept verbatim.
Python's `int` subtraction is modelled by `Nat` subtraction: the loop
starts at `i = 0` and, whenever `overlap < chunk_size`, only ever adds
the positive step, so the clamp is never observable there; when
`overlap ≥ chunk_size` both the source and the model make no forward
progress.  A `none` result means the fuel was exhausted. -/
def chunkLoop {τ : Type} (dec : List τ → String) (tokens : List τ)
    (chunkSize overlap : Nat) : Nat → Nat → Nat → Option (List Chunk)
  | 0, _, _ => none
  | fuel + 1, i, idx =>
    if i < tokens.length then
      let ctoks := (tokens.drop i).take chunkSize
      let ctext := dec ctoks
      let sc := (dec (tokens.take i)).length
      let c : Chunk := ⟨ctext, idx, sc, sc + ctext.length⟩
      let i' := i + (chunkSize - overlap)
      if tokens.length ≤ i' then some [c]
      else
        let i'' := if i' = 0 then chunkSize - overlap else i'
        (chunkLoop dec tokens chunkSize overlap fuel i'' (idx + 1)).map
          (fun l => c :: l)
    else some []

/-- Token-mode `chunk_text(text, chunk_size, overlap)`: the guard
`if not text or len(text.strip()) == 0: return []` followed by the
token window loop starting at `i = 0`, `chunk_index = 0`. -/
def chunk_text_tokens {τ : Type} (tk : Tokenizer τ) (text : String)
    (chunkSize overlap fuel : Nat) : Option (List Chunk) :=
  if pyStrip text = "" then some []
  else chunkLoop tk.decode (tk.encode text) chunkSize overlap fuel 0 0

/-- The character-mode fallback `while i < text_len` loop of
`chunk_text` (lines 84-103 of `text_chunker.py`): windows of
`CHUNK_SIZE_CHARS` characters, `end = min(i + chunk_size_chars,
text_len)`, the same step / break / `i == 0` safety structure. -/
def chunkLoopChar (text : String) (chunkSize overlap : Nat) :
    Nat → Nat → Nat → Option (List Chunk)
  | 0, _, _ => none
  | fuel + 1, i, idx =>
    if i < text.length then
      let e := min (i + chunkSize) text.length
      let ctext := pySub text i e
      let c : Chunk := ⟨ctext, idx, i, e⟩
      let i' := i + (chunkSize - overlap)
      if text.length ≤ i' then some [c]
      else
        let i'' := if i' = 0 then chunkSize - overlap else i'
        (chunkLoopChar text chunkSize overlap fuel i'' (idx + 1)).map
          (fun l => c :: l)
    else some []

/-- Character-mode `chunk_text(text)`: the empty/whitespace guard, then
the character window loop with the module constants (the fallback path
ignores the `chunk_size`/`overlap` arguments). -/
def chunk_text_chars (text : String) (fuel : Nat) : Option (List Chunk) :=
  if pyStrip text = "" then some []
  else chunkLoopChar text CHUNK_SIZE_CHARS CHUNK_OVERLAP_CHARS fuel 0 0

/-- A concrete `Tokenizer` instance where every character is its own
token (used to evaluate the chunker loop on concrete inputs). -/
def charTok : Tokenizer Char where
  encode s := s.data
  decode ts := String.mk ts
  decode_append a b := rfl
  decode_ne ts h := by
    intro hc
    apply h
    have h2 := congrArg String.data hc
    simpa using h2
  decode_encode s := rfl

/-- When `chunk_size - overlap = 0` and the token list is nonempty, the
window start stays at `0` forever: the safety check re-assigns the same
zero step, so no amount of fuel makes the loop finish. -/
lemma chunkLoop_no_progress {τ : Type} (dec : List τ → String)
    (tokens : List τ) (chunkSize overlap : Nat)
    (hstep : chunkSize - overlap = 0) (hlen : 0 < tokens.length) :
    ∀ fuel idx, chunkLoop dec tokens chunkSize overlap fuel 0 idx = none := by
  intro fuel
  induction fuel with
  | zero => intro idx; rfl
  | succ n ih =>
    intro idx
    have h0 : ¬ tokens.length ≤ 0 + (chunkSize - overlap) := by omega
    have h1 : (if 0 + (chunkSize - overlap) = 0 then chunkSize - overlap
        else 0 + (chunkSize - overlap)) = 0 := by simp [hstep]
    simp only [chunkLoop, if_pos hlen, if_neg h0, h1, ih (idx + 1),
      Option.map_none']

/-- Claim C1: the claim says `chunk_text` terminates for every
`target_size`/`overlap` configuration because the window start advances
by a strictly positive step.  The code violates this: with
`chunk_size = overlap = 2` on the two-token text `"ab"` the step is
`0`, the `if i == 0` guard re-assigns `i = chunk_size - overlap = 0`,
and the loop runs forever — no fuel bound suffices. -/
theorem chunk_text_diverges_when_overlap_equals_size :
    ∀ fuel : Nat, chunk_text_tokens charTok "ab" 2 2 fuel = none := by
  intro fuel
  have htrim : pyStrip "ab" ≠ "" := by decide
  unfold chunk_text_tokens
  rw [if_neg htrim]
  exact chunkLoop_no_progress charTok.decode (charTok.encode "ab") 2 2
    (by decide) (by decide) fuel 0

/-- A nonempty string has positive length. -/
lemma string_length_pos_of_ne (s : String) (h : s ≠ "") : 0 < s.length := by
  cases s with
  | mk data =>
    cases data with
    | nil => exact absurd (by decide : String.mk [] = "") h
    | cons c cs => simp [String.length]

/-- A string of length zero is empty. -/
lemma string_eq_empty_of_length (s : String) (h : s.length = 0) : s = "" := by
  cases s with
  | mk data =>
    cases data with
    | nil => decide
    | cons c cs => simp [String.length] at h

/-- Any tokenizer decodes the empty token sequence to the empty string. -/
lemma decode_nil {τ : Type} (tk : Tokenizer τ) : tk.decode [] = "" := by
  have h := tk.decode_append [] []
  simp only [List.append_nil] at h
  have h2 := congrArg String.length h
  rw [String.length_append] at h2
  exact string_eq_empty_of_length _ (by omega)

/-- Any tokenizer encodes nonempty text to a nonempty token sequence. -/
lemma encode_ne {τ : Type} (tk : Tokenizer τ) (text : String)
    (h : text ≠ "") : tk.encode text ≠ [] := by
  intro he
  apply h
  rw [← tk.decode_encode text, he, decode_nil]

/-- Stripping the empty string yields the empty string, so a string with
a nonempty strip is itself nonempty. -/
lemma ne_empty_of_pyStrip_ne (s : String) (h : pyStrip s ≠ "") : s ≠ "" := by
  intro hs
  subst hs
  exact h (by decide)

/-- A window `tokens[i:i+chunkSize]` taken inside the list is nonempty. -/
lemma window_ne {τ : Type} (tokens : List τ) (i cs : Nat)
    (hi : i < tokens.length) (hcs : 0 < cs) :
    (tokens.drop i).take cs ≠ [] := by
  cases hdrop : tokens.drop i with
  | nil =>
    rw [List.drop_eq_nil_iff] at hdrop
    omega
  | cons a as =>
    cases cs with
    | zero => omega
    | succ m => simp [hdrop]

/-- Decoded length of a longer token prefix is at least that of a
shorter one. -/
lemma decode_take_le {τ : Type} (tk : Tokenizer τ) (l : List τ)
    (s t : Nat) (hst : s ≤ t) :
    (tk.decode (l.take s)).length ≤ (tk.decode (l.take t)).length := by
  have hsplit : l.take t = l.take s ++ ((l.drop s).take (t - s)) := by
    rw [← List.take_add]
    congr 1
    omega
  rw [hsplit, tk.decode_append, String.length_append]
  omega

/-- Invariant of the token-mode window loop: whenever the loop finishes
(`some l`), consecutive chunks leave no gap, every chunk is a nonempty
span, and the first chunk starts at the decoded length of `tokens[:i]`. -/
lemma chunkLoop_cover {τ : Type} (tk : Tokenizer τ) (tokens : List τ)
    (chunkSize overlap : Nat) (hov : overlap < chunkSize) :
    ∀ fuel i idx l,
      chunkLoop tk.decode tokens chunkSize overlap fuel i idx = some l →
      List.Chain' (fun a b => b.start_char ≤ a.end_char) l
      ∧ (∀ c ∈ l, c.start_char < c.end_char)
      ∧ (∀ c, l.head? = some c →
           c.start_char = (tk.decode (tokens.take i)).length) := by
  intro fuel
  induction fuel with
  | zero => intro i idx l h; cases h
  | succ n ih =>
    intro i idx l h
    simp only [chunkLoop] at h
    by_cases hi : i < tokens.length
    · rw [if_pos hi] at h
      have hwin : 0 < (tk.decode ((tokens.drop i).take chunkSize)).length :=
        string_length_pos_of_ne _
          (tk.decode_ne _ (window_ne tokens i chunkSize hi (by omega)))
      by_cases hbreak : tokens.length ≤ i + (chunkSize - overlap)
      · rw [if_pos hbreak] at h
        obtain rfl : _ = l := Option.some.inj h
        refine ⟨List.chain'_singleton _, ?_, ?_⟩
        · intro c hc
          simp only [List.mem_singleton] at hc
          subst hc
          show (tk.decode (tokens.take i)).length <
            (tk.decode (tokens.take i)).length +
              (tk.decode ((tokens.drop i).take chunkSize)).length
          omega
        · intro c hc
          obtain rfl : _ = c := Option.some.inj hc
          rfl
      · rw [if_neg hbreak] at h
        have hne : ¬ (i + (chunkSize - overlap) = 0) := by omega
        rw [if_neg hne] at h
        obtain ⟨l₂, hrec, hcons⟩ := Option.map_eq_some'.mp h
        subst hcons
        obtain ⟨ih1, ih2, ih3⟩ := ih (i + (chunkSize - overlap)) (idx + 1) l₂ hrec
        have hlink : (tk.decode (tokens.take (i + (chunkSize - overlap)))).length ≤
            (tk.decode (tokens.take i)).length +
              (tk.decode ((tokens.drop i).take chunkSize)).length := by
          have hsplit : tokens.take (i + (chunkSize - overlap)) =
              tokens.take i ++ ((tokens.drop i).take (chunkSize - overlap)) :=
            List.take_add tokens i (chunkSize - overlap)
          rw [hsplit, tk.decode_append, String.length_append]
          have := decode_take_le tk (tokens.drop i) (chunkSize - overlap)
            chunkSize (by omega)
          omega
        refine ⟨?_, ?_, ?_⟩
        · rw [List.chain'_cons']
          refine ⟨?_, ih1⟩
          intro b hb
          cases l₂ with
          | nil => simp at hb
          | cons d ds =>
            simp only [List.head?_cons, Option.mem_def, Option.some.injEq] at hb
            subst hb
            have hstart := ih3 d rfl
            show d.start_char ≤ (tk.decode (tokens.take i)).length +
              (tk.decode ((tokens.drop i).take chunkSize)).length
            omega
        · intro c hc
          simp only [List.mem_cons] at hc
          cases hc with
          | inl hc =>
            subst hc
            show (tk.decode (tokens.take i)).length <
              (tk.decode (tokens.take i)).length +
                (tk.decode ((tokens.drop i).take chunkSize)).length
            omega
          | inr hc => exact ih2 c hc
        · intro c hc
          obtain rfl : _ = c := Option.some.inj hc
          rfl
    · rw [if_neg hi] at h
      obtain rfl : _ = l := Option.some.inj h
      exact ⟨List.chain'_nil, by simp, by simp⟩

/-- Invariant of the character-mode window loop: same gap-freeness and
nonemptiness, with the first chunk starting at the window start `i`. -/
lemma chunkLoopChar_cover (text : String) (chunkSize overlap : Nat)
    (hov : overlap < chunkSize) :
    ∀ fuel i idx l,
      chunkLoopChar text chunkSize overlap fuel i idx = some l →
      List.Chain' (fun a b => b.start_char ≤ a.end_char) l
      ∧ (∀ c ∈ l, c.start_char < c.end_char)
      ∧ (∀ c, l.head? = some c → c.start_char = i) := by
  intro fuel
  induction fuel with
  | zero => intro i idx l h; cases h
  | succ n ih =>
    intro i idx l h
    simp only [chunkLoopChar] at h
    by_cases hi : i < text.length
    · rw [if_pos hi] at h
      have hlt : i < min (i + chunkSize) text.length := by omega
      by_cases hbreak : text.length ≤ i + (chunkSize - overlap)
      · rw [if_pos hbreak] at h
        obtain rfl : _ = l := Option.some.inj h
        refine ⟨List.chain'_singleton _, ?_, ?_⟩
        · intro c hc
          simp only [List.mem_singleton] at hc
          subst hc
          exact hlt
        · intro c hc
          obtain rfl : _ = c := Option.some.inj hc
          rfl
      · rw [if_neg hbreak] at h
        have hne : ¬ (i + (chunkSize - overlap) = 0) := by omega
        rw [if_neg hne] at h
        obtain ⟨l₂, hrec, hcons⟩ := Option.map_eq_some'.mp h
        subst hcons
        obtain ⟨ih1, ih2, ih3⟩ := ih (i + (chunkSize - overlap)) (idx + 1) l₂ hrec
        refine ⟨?_, ?_, ?_⟩
        · rw [List.chain'_cons']
          refine ⟨?_, ih1⟩
          intro b hb
          cases l₂ with
          | nil => simp at hb
          | cons d ds =>
            simp only [List.head?_cons, Option.mem_def, Option.some.injEq] at hb
            subst hb
            have hstart := ih3 d rfl
            show d.start_char ≤ min (i + chunkSize) text.length
            omega
        · intro c hc
          simp only [List.mem_cons] at hc
          cases hc with
          | inl hc => subst hc; exact hlt
          | inr hc => exact ih2 c hc
        · intro c hc
          obtain rfl : _ = c := Option.some.inj hc
          rfl
    · rw [if_neg hi] at h
      obtain rfl : _ = l := Option.some.inj h
      exact ⟨List.chain'_nil, by simp, by simp⟩

/-- Claim C6: for every input text (in either chunking mode, with a
well-configured `overlap < chunk_size` in token mode; the character
fallback uses the fixed 4000/500 constants), the emitted chunks cover
the source with no gaps: `chunks[i+1].start_char ≤ chunks[i].end_char`
for consecutive pairs, and `start_char < end_char` for every chunk. -/
theorem chunk_text_covers_source {τ : Type} (tk : Tokenizer τ)
    (text : String) (chunkSize overlap fuel : Nat)
    (hov : overlap < chunkSize) :
    (∀ l, chunk_text_tokens tk text chunkSize overlap fuel = some l →
      List.Chain' (fun a b => b.start_char ≤ a.end_char) l
      ∧ ∀ c ∈ l, c.start_char < c.end_char)
    ∧ (∀ l, chunk_text_chars text fuel = some l →
      List.Chain' (fun a b => b.start_char ≤ a.end_char) l
      ∧ ∀ c ∈ l, c.start_char < c.end_char) := by
  constructor
  · intro l h
    unfold chunk_text_tokens at h
    by_cases hg : pyStrip text = ""
    · rw [if_pos hg] at h
      obtain rfl : _ = l := Option.some.inj h
      exact ⟨List.chain'_nil, by simp⟩
    · rw [if_neg hg] at h
      obtain ⟨h1, h2, _⟩ :=
        chunkLoop_cover tk (tk.encode text) chunkSize overlap hov fuel 0 0 l h
      exact ⟨h1, h2⟩
  · intro l h
    unfold chunk_text_chars at h
    by_cases hg : pyStrip text = ""
    · rw [if_pos hg] at h
      obtain rfl : _ = l := Option.some.inj h
      exact ⟨List.chain'_nil, by simp⟩
    · rw [if_neg hg] at h
      have hConst : CHUNK_OVERLAP_CHARS < CHUNK_SIZE_CHARS := by decide
      obtain ⟨h1, h2, _⟩ :=
        chunkLoopChar_cover text CHUNK_SIZE_CHARS CHUNK_OVERLAP_CHARS hConst
          fuel 0 0 l h
      exact ⟨h1, h2⟩

/-- Witness for C6 at a concrete input: chunking `"abc"` with window 2
and overlap 1 through the character-level tokenizer. -/
theorem chunk_text_covers_source_witness :
    (1 < 2) ∧
    (List.Chain' (fun a b => b.start_char ≤ a.end_char)
        [(⟨"ab", 0, 0, 2⟩ : Chunk), ⟨"bc", 1, 1, 3⟩, ⟨"c", 2, 2, 3⟩]
      ∧ ∀ c ∈ [(⟨"ab", 0, 0, 2⟩ : Chunk), ⟨"bc", 1, 1, 3⟩, ⟨"c", 2, 2, 3⟩],
          c.start_char < c.end_char) :=
  ⟨by decide,
    (chunk_text_covers_source charTok "abc" 2 1 10 (by decide)).1
      [(⟨"ab", 0, 0, 2⟩ : Chunk), ⟨"bc", 1, 1, 3⟩, ⟨"c", 2, 2, 3⟩] (by decide)⟩

/-- Metadata invariant of the token-mode loop: chunk indices count up
from `idx` in emission order, and `end_char` is always `start_char`
plus the length of the chunk's text. -/
lemma chunkLoop_meta {τ : Type} (dec : List τ → String) (tokens : List τ)
    (chunkSize overlap : Nat) :
    ∀ fuel i idx l,
      chunkLoop dec tokens chunkSize overlap fuel i idx = some l →
      (∀ k (hk : k < l.length), (l.get ⟨k, hk⟩).chunk_index = idx + k)
      ∧ ∀ c ∈ l, c.end_char = c.start_char + c.text.length := by
  intro fuel
  induction fuel with
  | zero => intro i idx l h; cases h
  | succ n ih =>
    intro i idx l h
    simp only [chunkLoop] at h
    by_cases hi : i < tokens.length
    · rw [if_pos hi] at h
      by_cases hbreak : tokens.length ≤ i + (chunkSize - overlap)
      · rw [if_pos hbreak] at h
        obtain rfl : _ = l := Option.some.inj h
        constructor
        · intro k hk
          simp only [List.length_singleton] at hk
          interval_cases k
          simp [List.get]
        · intro c hc
          simp only [List.mem_singleton] at hc
          subst hc
          rfl
      · rw [if_neg hbreak] at h
        obtain ⟨l₂, hrec, hcons⟩ := Option.map_eq_some'.mp h
        subst hcons
        obtain ⟨ih1, ih2⟩ := ih _ (idx + 1) l₂ hrec
        constructor
        · intro k hk
          cases k with
          | zero => simp [List.get]
          | succ m =>
            have hm : m < l₂.length := by
              simpa [List.length_cons] using hk
            have := ih1 m hm
            simp only [List.get_cons_succ]
            rw [this]
            omega
        · intro c hc
          simp only [List.mem_cons] at hc
          cases hc with
          | inl hc => subst hc; rfl
          | inr hc => exact ih2 c hc
    · rw [if_neg hi] at h
      obtain rfl : _ = l := Option.some.inj h
      exact ⟨by intro k hk; simp at hk, by simp⟩

/-- Metadata invariant of the character-mode loop. -/
lemma chunkLoopChar_meta (text : String) (chunkSize overlap : Nat) :
    ∀ fuel i idx l,
      chunkLoopChar text chunkSize overlap fuel i idx = some l →
      (∀ k (hk : k < l.length), (l.get ⟨k, hk⟩).chunk_index = idx + k)
      ∧ ∀ c ∈ l, c.end_char = c.start_char + c.text.length := by
  intro fuel
  induction fuel with
  | zero => intro i idx l h; cases h
  | succ n ih =>
    intro i idx l h
    simp only [chunkLoopChar] at h
    by_cases hi : i < text.length
    · rw [if_pos hi] at h
      have hlen : (pySub text i (min (i + chunkSize) text.length)).length =
          min (i + chunkSize) text.length - i := by
        show ((text.data.drop i).take (min (i + chunkSize) text.length - i)).length = _
        rw [List.length_take, List.length_drop]
        have : text.data.length = text.length := rfl
        omega
      have hend : min (i + chunkSize) text.length =
          i + (pySub text i (min (i + chunkSize) text.length)).length := by
        rw [hlen]
        omega
      by_cases hbreak : text.length ≤ i + (chunkSize - overlap)
      · rw [if_pos hbreak] at h
        obtain rfl : _ = l := Option.some.inj h
        constructor
        · intro k hk
          simp only [List.length_singleton] at hk
          interval_cases k
          simp [List.get]
        · intro c hc
          simp only [List.mem_singleton] at hc
          subst hc
          exact hend
      · rw [if_neg hbreak] at h
        obtain ⟨l₂, hrec, hcons⟩ := Option.map_eq_some'.mp h
        subst hcons
        obtain ⟨ih1, ih2⟩ := ih _ (idx + 1) l₂ hrec
        constructor
        · intro k hk
          cases k with
          | zero => simp [List.get]
          | succ m =>
            have hm : m < l₂.length := by
              simpa [List.length_cons] using hk
            have := ih1 m hm
            simp only [List.get_cons_succ]
            rw [this]
            omega
        · intro c hc
          simp only [List.mem_cons] at hc
          cases hc with
          | inl hc => subst hc; exact hend
          | inr hc => exact ih2 c hc
    · rw [if_neg hi] at h
      obtain rfl : _ = l := Option.some.inj h
      exact ⟨by intro k hk; simp at hk, by simp⟩

/-- Claim C10: in both token-based and character-based mode, every
emitted chunk satisfies `end_char = start_char + len(text)`, and
`chunk_index` equals the chunk's zero-based position in the returned
sequence. -/
theorem chunk_text_metadata_consistent {τ : Type} (tk : Tokenizer τ)
    (text : String) (chunkSize overlap fuel : Nat) :
    (∀ l, chunk_text_tokens tk text chunkSize overlap fuel = some l →
      (∀ k (hk : k < l.length), (l.get ⟨k, hk⟩).chunk_index = k)
      ∧ ∀ c ∈ l, c.end_char = c.start_char + c.text.length)
    ∧ (∀ l, chunk_text_chars text fuel = some l →
      (∀ k (hk : k < l.length), (l.get ⟨k, hk⟩).chunk_index = k)
      ∧ ∀ c ∈ l, c.end_char = c.start_char + c.text.length) := by
  constructor
  · intro l h
    unfold chunk_text_tokens at h
    by_cases hg : pyStrip text = ""
    · rw [if_pos hg] at h
      obtain rfl : _ = l := Option.some.inj h
      exact ⟨by intro k hk; simp at hk, by simp⟩
    · rw [if_neg hg] at h
      obtain ⟨h1, h2⟩ :=
        chunkLoop_meta tk.decode (tk.encode text) chunkSize overlap fuel 0 0 l h
      exact ⟨by intro k hk; simpa using h1 k hk, h2⟩
  · intro l h
    unfold chunk_text_chars at h
    by_cases hg : pyStrip text = ""
    · rw [if_pos hg] at h
      obtain rfl : _ = l := Option.some.inj h
      exact ⟨by intro k hk; simp at hk, by simp⟩
    · rw [if_neg hg] at h
      obtain ⟨h1, h2⟩ :=
        chunkLoopChar_meta text CHUNK_SIZE_CHARS CHUNK_OVERLAP_CHARS fuel 0 0 l h
      exact ⟨by intro k hk; simpa using h1 k hk, h2⟩

/-- Witness for C10 at a concrete input. -/
theorem chunk_text_metadata_consistent_witness :
    ((∀ k (hk : k < ([(⟨"ab", 0, 0, 2⟩ : Chunk), ⟨"bc", 1, 1, 3⟩,
          ⟨"c", 2, 2, 3⟩] : List Chunk).length),
        (([(⟨"ab", 0, 0, 2⟩ : Chunk), ⟨"bc", 1, 1, 3⟩,
          ⟨"c", 2, 2, 3⟩] : List Chunk).get ⟨k, hk⟩).chunk_index = k)
      ∧ ∀ c ∈ [(⟨"ab", 0, 0, 2⟩ : Chunk), ⟨"bc", 1, 1, 3⟩, ⟨"c", 2, 2, 3⟩],
          c.end_char = c.start_char + c.text.length) :=
  (chunk_text_metadata_consistent charTok "abc" 2 1 10).1
    [(⟨"ab", 0, 0, 2⟩ : Chunk), ⟨"bc", 1, 1, 3⟩, ⟨"c", 2, 2, 3⟩] (by decide)

/-- Claim C7 (amended): `chunk_text("") == []` (and whitespace-only
text also yields `[]`, since the guard tests `text.strip()`); a text
that survives the strip guard yields exactly one chunk equal to the
whole input when its token (resp. character) sequence is no longer
than `chunk_size - overlap` (resp. `CHUNK_SIZE_CHARS -
CHUNK_OVERLAP_CHARS`).  Merely being shorter than `chunk_size` is not
enough — see the counterexample, where a second overlapping chunk is
emitted. -/
theorem chunk_text_empty_and_short {τ : Type} (tk : Tokenizer τ) :
    (∀ chunkSize overlap fuel,
      chunk_text_tokens tk "" chunkSize overlap fuel = some [])
    ∧ (∀ fuel, chunk_text_chars "" fuel = some [])
    ∧ (∀ text chunkSize overlap fuel, pyStrip text ≠ "" →
        0 < chunkSize - overlap →
        (tk.encode text).length ≤ chunkSize - overlap → 1 ≤ fuel →
        chunk_text_tokens tk text chunkSize overlap fuel =
          some [⟨text, 0, 0, text.length⟩])
    ∧ (∀ text fuel, pyStrip text ≠ "" →
        text.length ≤ CHUNK_SIZE_CHARS - CHUNK_OVERLAP_CHARS → 1 ≤ fuel →
        chunk_text_chars text fuel = some [⟨text, 0, 0, text.length⟩]) := by
  refine ⟨?_, ?_, ?_, ?_⟩
  · intro chunkSize overlap fuel
    unfold chunk_text_tokens
    rw [if_pos (by decide)]
  · intro fuel
    unfold chunk_text_chars
    rw [if_pos (by decide)]
  · intro text chunkSize overlap fuel hg hstep hlen hfuel
    obtain ⟨m, rfl⟩ : ∃ m, fuel = m + 1 := ⟨fuel - 1, by omega⟩
    unfold chunk_text_tokens
    rw [if_neg hg]
    have htext : text ≠ "" := ne_empty_of_pyStrip_ne text hg
    have htok : tk.encode text ≠ [] := encode_ne tk text htext
    have hpos : 0 < (tk.encode text).length := List.length_pos.mpr htok
    have htake : (tk.encode text).take chunkSize = tk.encode text :=
      List.take_of_length_le (by omega)
    simp only [chunkLoop]
    rw [if_pos hpos,
      if_pos (show (tk.encode text).length ≤ 0 + (chunkSize - overlap) by omega)]
    simp [List.drop_zero, htake, tk.decode_encode, decode_nil]
  · intro text fuel hg hshort hfuel
    obtain ⟨m, rfl⟩ : ∃ m, fuel = m + 1 := ⟨fuel - 1, by omega⟩
    unfold chunk_text_chars
    rw [if_neg hg]
    have htext : text ≠ "" := ne_empty_of_pyStrip_ne text hg
    have hpos : 0 < text.length := string_length_pos_of_ne text htext
    have hshort' : text.length ≤ 3500 := by
      simpa [CHUNK_SIZE_CHARS, CHUNK_OVERLAP_CHARS] using hshort
    simp only [chunkLoopChar]
    rw [if_pos hpos,
      if_pos (show text.length ≤ 0 + (CHUNK_SIZE_CHARS - CHUNK_OVERLAP_CHARS) by
        simp only [CHUNK_SIZE_CHARS, CHUNK_OVERLAP_CHARS]
        omega)]
    have hmin : min (0 + CHUNK_SIZE_CHARS) text.length = text.length := by
      simp only [CHUNK_SIZE_CHARS]
      omega
    rw [hmin]
    have hsub : pySub text 0 text.length = text := by
      show String.mk ((text.data.drop 0).take (text.length - 0)) = text
      rw [List.drop_zero, Nat.sub_zero]
      show String.mk (text.data.take text.data.length) = text
      rw [List.take_length]
    rw [hsub]

/-- Witness for C7 (amended) at a concrete input. -/
theorem chunk_text_empty_and_short_witness :
    (pyStrip "ab" ≠ "" ∧ 0 < 5 - 2 ∧ (charTok.encode "ab").length ≤ 5 - 2
      ∧ 1 ≤ 1) ∧
    chunk_text_tokens charTok "ab" 5 2 1 = some [⟨"ab", 0, 0, 2⟩] :=
  ⟨⟨by decide, by decide, by decide, by decide⟩,
    (chunk_text_empty_and_short charTok).2.2.1 "ab" 5 2 1
      (by decide) (by decide) (by decide) (by decide)⟩

/-- Counterexample to Claim C7 as stated: `"ab"` is non-empty and
shorter than the target size 3, yet `chunk_text` with
`chunk_size = 3`, `overlap = 2` returns TWO chunks (the step is
`3 - 2 = 1`, so a second window starts inside the text), not exactly
one chunk equal to the whole input. -/
theorem chunk_text_short_two_chunks :
    (pyStrip "ab" ≠ "" ∧ ("ab" : String).length < 3) ∧
    (chunk_text_tokens charTok "ab" 3 2 10).map List.length = some 2 := by
  decide

/-- `np.dot(vec1, vec2)` for equal-length vectors (all call sites pair
a query with stored vectors of the embedding model's dimension). -/
def dotQ (v w : List ℚ) : ℚ := (List.zipWith (· * ·) v w).sum

/-- `np.linalg.norm(vec)`: the Euclidean norm, the square root of the
sum of squares. -/
noncomputable def normR (v : List ℚ) : ℝ := Real.sqrt ((dotQ v v : ℚ) : ℝ)

/-- `_cosine_similarity(vec1, vec2)` from `simple_vector_store.py`:
`0.0` when either norm is exactly zero, otherwise
`dot / (norm1 * norm2)`. -/
noncomputable def cosine_similarity (vec1 vec2 : List ℚ) : ℝ :=
  if normR vec1 = 0 ∨ normR vec2 = 0 then 0
  else ((dotQ vec1 vec2 : ℚ) : ℝ) / (normR vec1 * normR vec2)

/-- In-memory state of a `SimpleVectorStore` object: `self.doc_id`,
`self.chunks`, `self.embeddings`. -/
structure SimpleVectorStore where
  doc_id : String
  chunks : List Chunk
  embeddings : List (List ℚ)
deriving DecidableEq

/-- A search hit: a copy of the chunk dict with a `"score"` key added. -/
structure SearchResult where
  chunk : Chunk
  score : ℝ

/-- Python `enumerate`, starting at `i`. -/
def enumFrom {α : Type} (i : Nat) : List α → List (Nat × α)
  | [] => []
  | a :: as => (i, a) :: enumFrom (i + 1) as

/-- The `similarities` list built by `SimpleVectorStore.search`:
`(i, _cosine_similarity(query_vec, emb))` for each stored embedding in
insertion order. -/
noncomputable def similaritiesOf (s : SimpleVectorStore) (query : List ℚ) :
    List (Nat × ℝ) :=
  (enumFrom 0 s.embeddings).map (fun p => (p.1, cosine_similarity query p.2))

/-- Stable insertion for a descending sort by score: a later element is
placed after every earlier element whose score is greater than or equal
to its own. -/
noncomputable def insertDesc (x : Nat × ℝ) :
    List (Nat × ℝ) → List (Nat × ℝ)
  | [] => [x]
  | y :: ys => if x.2 < y.2 then y :: insertDesc x ys else x :: y :: ys

/-- `similarities.sort(key=lambda x: x[1], reverse=True)`: CPython's
sort is stable, and `reverse=True` keeps equal-scored entries in their
original order; this stable insertion sort computes exactly that
permutation. -/
noncomputable def sortDesc : List (Nat × ℝ) → List (Nat × ℝ)
  | [] => []
  | x :: xs => insertDesc x (sortDesc xs)

/-- Python list slicing `l[:k]` for an `int` bound `k`: the first `k`
entries when `k ≥ 0`, everything but the last `|k|` entries when
`k < 0`. -/
def pySliceTo {α : Type} (l : List α) (k : Int) : List α :=
  if 0 ≤ k then l.take k.toNat else l.take (l.length - (-k).toNat)

/-- `SimpleVectorStore.search(query_embedding, top_k)`: early `[]` on
an empty collection, similarity scoring, stable descending sort, the
`similarities[:top_k]` slice, and the chunk-with-score projection. -/
noncomputable def SimpleVectorStore.search (s : SimpleVectorStore)
    (query_embedding : List ℚ) (top_k : Int) : List SearchResult :=
  if s.embeddings.length = 0 then []
  else
    (pySliceTo (sortDesc (similaritiesOf s query_embedding)) top_k).map
      (fun p => ⟨s.chunks.getD p.1 ⟨"", 0, 0, 0⟩, p.2⟩)

/-- The persisted JSON record written by `SimpleVectorStore._save`:
`{"doc_id": ..., "embeddings": ..., "chunks": ...}` (JSON float
round-trips are exact via `repr`, so numbers are kept as they are). -/
structure DiskData where
  doc_id : String
  embeddings : List (List ℚ)
  chunks : List Chunk
deriving DecidableEq

/-- The storage directory: one record per document identifier. -/
abbrev Disk := List (String × DiskData)

/-- Read `doc_<id>.json` if it exists. -/
def diskRead (d : Disk) (k : String) : Option DiskData :=
  (d.find? (fun p => p.1 == k)).map (fun p => p.2)

/-- (Over)write `doc_<id>.json`. -/
def diskWrite (d : Disk) (k : String) (v : DiskData) : Disk :=
  (k, v) :: d.filter (fun p => !(p.1 == k))

/-- `SimpleVectorStore._save`: the record serialized for this store. -/
def SimpleVectorStore.save (s : SimpleVectorStore) : DiskData :=
  ⟨s.doc_id, s.embeddings, s.chunks⟩

/-- `SimpleVectorStore.__init__` + `_load`: start from the persisted
record when present, otherwise (missing file) the empty collection. -/
def loadStore (disk : Disk) (doc_id : String) : SimpleVectorStore :=
  match diskRead disk doc_id with
  | none => ⟨doc_id, [], []⟩
  | some data => ⟨doc_id, data.chunks, data.embeddings⟩

/-- The error taxonomy of the ingest path: `ValueError("Mismatch: {n}
chunks but {m} embeddings")`, the spec's `ValidationError`, carrying
the two counts. -/
inductive VError
  | validation (nchunks nembeddings : Nat)
deriving DecidableEq

/-- `SimpleVectorStore.add(chunks, embeddings)`: the count-parity check
comes first (so a failure leaves both the in-memory collection and the
persisted record untouched); on success the collection is replaced and
persisted via `_save`. -/
def SimpleVectorStore.add (s : SimpleVectorStore) (disk : Disk)
    (chunks : List Chunk) (embeddings : List (List ℚ)) :
    SimpleVectorStore × Disk × Except VError Unit :=
  if chunks.length ≠ embeddings.length then
    (s, disk, .error (.validation chunks.length embeddings.length))
  else
    let s' : SimpleVectorStore := ⟨s.doc_id, chunks, embeddings⟩
    (s', diskWrite disk s.doc_id s'.save, .ok ())

/-- The module-level `_stores` registry plus the storage directory. -/
structure GlobalState where
  stores : List (String × SimpleVectorStore)
  disk : Disk
deriving DecidableEq

/-- `get_or_create_store(doc_id)`: return the registered store, or
construct one (loading any persisted state) and register it. -/
def get_or_create_store (gs : GlobalState) (doc_id : String) :
    SimpleVectorStore × GlobalState :=
  match (gs.stores.find? (fun p => p.1 == doc_id)).map (fun p => p.2) with
  | some s => (s, gs)
  | none =>
    let s := loadStore gs.disk doc_id
    (s, ⟨(doc_id, s) :: gs.stores, gs.disk⟩)

/-- `store_document(doc_id, chunks, embeddings)`: the parity check
precedes any store access; on success the store is fetched or created,
its collection replaced and persisted, and the chunk count returned.
(In the success branch the inner `add` check is the same comparison and
cannot fail.) -/
def store_document (gs : GlobalState) (doc_id : String)
    (chunks : List Chunk) (embeddings : List (List ℚ)) :
    GlobalState × Except VError Nat :=
  if chunks.length ≠ embeddings.length then
    (gs, .error (.validation chunks.length embeddings.length))
  else
    let r := get_or_create_store gs doc_id
    let a := r.1.add r.2.disk chunks embeddings
    (⟨r.2.stores.map (fun p => if p.1 == doc_id then (p.1, a.1) else p),
      a.2.1⟩, .ok chunks.length)

/-- One formatted result of `search_document`: `text`, `score`,
`chunk_index`, and the metadata dict holding the remaining chunk keys
(`chunk_index`, `start_char`, `end_char`). -/
structure SourceOut where
  text : String
  score : ℝ
  chunk_index : Nat
  metadata : Nat × Nat × Nat

/-- `search_document(doc_id, query_embedding, top_k)`: fetch or create
the store, search it, and re-package each result. -/
noncomputable def search_document (gs : GlobalState) (doc_id : String)
    (query_embedding : List ℚ) (top_k : Int) :
    GlobalState × List SourceOut :=
  let r := get_or_create_store gs doc_id
  (r.2, (r.1.search query_embedding top_k).map (fun res =>
    ⟨res.chunk.text, res.score, res.chunk.chunk_index,
      (res.chunk.chunk_index, res.chunk.start_char, res.chunk.end_char)⟩))

/-- Claim C8: if either vector's norm is exactly zero the similarity is
defined as `0.0`, and otherwise the division's denominator
`norm1 * norm2` is provably nonzero — the division is never performed
with a zero denominator. -/
theorem cosine_similarity_zero_norm_guard (vec1 vec2 : List ℚ) :
    (normR vec1 = 0 ∨ normR vec2 = 0 → cosine_similarity vec1 vec2 = 0)
    ∧ (normR vec1 ≠ 0 → normR vec2 ≠ 0 →
        normR vec1 * normR vec2 ≠ 0
        ∧ cosine_similarity vec1 vec2 =
            ((dotQ vec1 vec2 : ℚ) : ℝ) / (normR vec1 * normR vec2)) := by
  constructor
  · intro h
    unfold cosine_similarity
    rw [if_pos h]
  · intro h1 h2
    refine ⟨mul_ne_zero h1 h2, ?_⟩
    unfold cosine_similarity
    rw [if_neg (by tauto)]

/-- Witness for C8: the zero vector `[0]` against `[1]`. -/
theorem cosine_similarity_zero_norm_guard_witness :
    (normR [(0 : ℚ)] = 0 ∨ normR [(1 : ℚ)] = 0)
    ∧ cosine_similarity [(0 : ℚ)] [(1 : ℚ)] = 0 := by
  have h : normR [(0 : ℚ)] = 0 := by
    have hd : dotQ [(0 : ℚ)] [(0 : ℚ)] = 0 := by norm_num [dotQ]
    unfold normR
    rw [hd]
    simp
  exact ⟨Or.inl h,
    (cosine_similarity_zero_norm_guard [(0 : ℚ)] [(1 : ℚ)]).1 (Or.inl h)⟩

/-- Reading back the record just written for a key returns it. -/
lemma diskRead_diskWrite_self (disk : Disk) (k : String) (v : DiskData) :
    diskRead (diskWrite disk k v) k = some v := by
  unfold diskRead diskWrite
  rw [List.find?_cons_of_pos _ (by simp)]
  rfl

/-- Claim C5: persisting a collection (`_save`, written to the record
for its document identifier) and reloading it (`_load`) yields the
identical chunk sequence and identical (hence within any tolerance)
vectors. -/
theorem store_save_load_roundtrip (disk : Disk) (s : SimpleVectorStore) :
    (loadStore (diskWrite disk s.doc_id s.save) s.doc_id).chunks = s.chunks
    ∧ (loadStore (diskWrite disk s.doc_id s.save) s.doc_id).embeddings
        = s.embeddings := by
  unfold loadStore
  rw [diskRead_diskWrite_self]
  exact ⟨rfl, rfl⟩

/-- Claim C4: `add` / `store_document` with mismatched chunk and vector
counts fails with the validation error and returns the in-memory store,
the persisted record, and the global registry unchanged. -/
theorem add_mismatch_rejected (s : SimpleVectorStore) (disk : Disk)
    (gs : GlobalState) (doc_id : String) (chunks : List Chunk)
    (embeddings : List (List ℚ))
    (h : chunks.length ≠ embeddings.length) :
    s.add disk chunks embeddings =
      (s, disk, .error (.validation chunks.length embeddings.length))
    ∧ store_document gs doc_id chunks embeddings =
      (gs, .error (.validation chunks.length embeddings.length)) := by
  constructor
  · unfold SimpleVectorStore.add
    rw [if_pos h]
  · unfold store_document
    rw [if_pos h]

/-- Witness for C4: one chunk, zero vectors. -/
theorem add_mismatch_rejected_witness :
    ([(⟨"a", 0, 0, 1⟩ : Chunk)].length ≠ ([] : List (List ℚ)).length)
    ∧ (SimpleVectorStore.mk "d" [] []).add [] [⟨"a", 0, 0, 1⟩] [] =
        (⟨"d", [], []⟩, [], .error (.validation 1 0))
    ∧ store_document ⟨[], []⟩ "d" [⟨"a", 0, 0, 1⟩] [] =
        (⟨[], []⟩, .error (.validation 1 0)) :=
  ⟨by decide,
    (add_mismatch_rejected ⟨"d", [], []⟩ [] ⟨[], []⟩ "d"
      [⟨"a", 0, 0, 1⟩] [] (by decide)).1,
    (add_mismatch_rejected ⟨"d", [], []⟩ [] ⟨[], []⟩ "d"
      [⟨"a", 0, 0, 1⟩] [] (by decide)).2⟩

/-- Claim C9: searching a document identifier that was never ingested
and has no persisted record returns the empty result list (the store
is created empty and the empty-collection early return fires), not an
exception. -/
theorem search_unknown_document_empty (gs : GlobalState) (doc_id : String)
    (query : List ℚ) (top_k : Int)
    (hmem : gs.stores.find? (fun p => p.1 == doc_id) = none)
    (hdisk : diskRead gs.disk doc_id = none) :
    (search_document gs doc_id query top_k).2 = [] := by
  unfold search_document get_or_create_store loadStore
  rw [hmem, hdisk]
  simp [SimpleVectorStore.search]

/-- Witness for C9: a fresh process state and an unknown identifier. -/
theorem search_unknown_document_empty_witness :
    ((GlobalState.mk [] []).stores.find? (fun p => p.1 == "d") = none
      ∧ diskRead (GlobalState.mk [] []).disk "d" = none)
    ∧ (search_document ⟨[], []⟩ "d" [] 5).2 = [] :=
  ⟨⟨rfl, rfl⟩, search_unknown_document_empty ⟨[], []⟩ "d" [] 5 rfl rfl⟩

/-- Inserting an element permutes consing it. -/
lemma insertDesc_perm (x : Nat × ℝ) (l : List (Nat × ℝ)) :
    List.Perm (insertDesc x l) (x :: l) := by
  induction l with
  | nil => exact List.Perm.refl _
  | cons y ys ih =>
    unfold insertDesc
    by_cases h : x.2 < y.2
    · rw [if_pos h]
      exact (ih.cons y).trans (List.Perm.swap x y ys)
    · rw [if_neg h]

/-- The stable descending sort is a permutation of its input. -/
lemma sortDesc_perm (l : List (Nat × ℝ)) : List.Perm (sortDesc l) l := by
  induction l with
  | nil => exact List.Perm.refl _
  | cons x xs ih => exact (insertDesc_perm x (sortDesc xs)).trans (ih.cons x)

/-- The sort preserves length. -/
lemma sortDesc_length (l : List (Nat × ℝ)) :
    (sortDesc l).length = l.length :=
  (sortDesc_perm l).length_eq

/-- The ranking order: strictly higher score first, ties broken by the
smaller (earlier) insertion index. -/
def rankRel (a b : Nat × ℝ) : Prop := b.2 < a.2 ∨ (a.2 = b.2 ∧ a.1 < b.1)

/-- The ranking order implies weakly descending scores. -/
lemma rankRel_score_le {a b : Nat × ℝ} (h : rankRel a b) : b.2 ≤ a.2 := by
  rcases h with h | ⟨h, _⟩
  · exact le_of_lt h
  · exact le_of_eq h.symm

/-- Members of an insertion come from the element or the list. -/
lemma insertDesc_mem {x z : Nat × ℝ} {l : List (Nat × ℝ)}
    (h : z ∈ insertDesc x l) : z = x ∨ z ∈ l := by
  induction l with
  | nil => simpa [insertDesc] using h
  | cons y ys ih =>
    unfold insertDesc at h
    by_cases hc : x.2 < y.2
    · rw [if_pos hc] at h
      rcases List.mem_cons.mp h with h | h
      · exact Or.inr (List.mem_cons.mpr (Or.inl h))
      · rcases ih h with h | h
        · exact Or.inl h
        · exact Or.inr (List.mem_cons.mpr (Or.inr h))
    · rw [if_neg hc] at h
      rcases List.mem_cons.mp h with h | h
      · exact Or.inl h
      · exact Or.inr h

/-- Stable insertion of a later element (larger index than everything
present) into a ranked list keeps the list ranked. -/
lemma insertDesc_pairwise (x : Nat × ℝ) (l : List (Nat × ℝ))
    (hl : List.Pairwise rankRel l) (hx : ∀ y ∈ l, x.1 < y.1) :
    List.Pairwise rankRel (insertDesc x l) := by
  induction l with
  | nil => simp [insertDesc]
  | cons y ys ih =>
    rw [List.pairwise_cons] at hl
    obtain ⟨hy, hys⟩ := hl
    unfold insertDesc
    by_cases hc : x.2 < y.2
    · rw [if_pos hc]
      rw [List.pairwise_cons]
      constructor
      · intro z hz
        rcases insertDesc_mem hz with rfl | hz
        · exact Or.inl hc
        · exact hy z hz
      · exact ih hys (fun y' hy' => hx y' (List.mem_cons_of_mem y hy'))
    · rw [if_neg hc]
      rw [List.pairwise_cons]
      constructor
      · intro z hz
        rcases List.mem_cons.mp hz with rfl | hz
        · rcases lt_or_eq_of_le (not_lt.mp hc) with hlt | heq
          · exact Or.inl hlt
          · exact Or.inr ⟨heq.symm, hx z (List.mem_cons_self z ys)⟩
        · have hz2 : z.2 ≤ y.2 := rankRel_score_le (hy z hz)
          have hyx : y.2 ≤ x.2 := not_lt.mp hc
          rcases lt_or_eq_of_le (le_trans hz2 hyx) with hlt | heq
          · exact Or.inl hlt
          · exact Or.inr ⟨heq.symm, hx z (List.mem_cons_of_mem y hz)⟩
      · exact List.pairwise_cons.mpr ⟨hy, hys⟩

/-- Sorting a list with strictly increasing indices yields a list that
is ranked: scores descending, ties in original insertion order. -/
lemma sortDesc_pairwise (l : List (Nat × ℝ))
    (h : List.Pairwise (fun a b => a.1 < b.1) l) :
    List.Pairwise rankRel (sortDesc l) := by
  induction l with
  | nil => simp [sortDesc]
  | cons x xs ih =>
    rw [List.pairwise_cons] at h
    obtain ⟨hx, hxs⟩ := h
    unfold sortDesc
    apply insertDesc_pairwise x (sortDesc xs) (ih hxs)
    intro y hy
    exact hx y ((sortDesc_perm xs).mem_iff.mp hy)

/-- Every index in `enumFrom i l` is at least `i`. -/
lemma enumFrom_fst_le {α : Type} :
    ∀ (l : List α) (i : Nat) (p : Nat × α), p ∈ enumFrom i l → i ≤ p.1 := by
  intro l
  induction l with
  | nil => intro i p h; cases h
  | cons a as ih =>
    intro i p h
    rcases List.mem_cons.mp h with rfl | h
    · exact le_refl i
    · exact le_trans (by omega) (ih (i + 1) p h)

/-- `enumFrom` has strictly increasing indices. -/
lemma enumFrom_pairwise {α : Type} :
    ∀ (l : List α) (i : Nat),
      List.Pairwise (fun a b : Nat × α => a.1 < b.1) (enumFrom i l) := by
  intro l
  induction l with
  | nil => intro i; simp [enumFrom]
  | cons a as ih =>
    intro i
    unfold enumFrom
    rw [List.pairwise_cons]
    exact ⟨fun p hp => lt_of_lt_of_le (by omega) (enumFrom_fst_le as (i + 1) p hp),
      ih (i + 1)⟩

/-- `enumFrom` preserves length. -/
lemma enumFrom_length {α : Type} :
    ∀ (l : List α) (i : Nat), (enumFrom i l).length = l.length := by
  intro l
  induction l with
  | nil => intro i; rfl
  | cons a as ih => intro i; simp [enumFrom, ih]

/-- The similarity list has one entry per stored embedding. -/
lemma similaritiesOf_length (s : SimpleVectorStore) (q : List ℚ) :
    (similaritiesOf s q).length = s.embeddings.length := by
  unfold similaritiesOf
  rw [List.length_map, enumFrom_length]

/-- Looking each enumerated index up in a parallel list of the same
length reproduces that list. -/
lemma enumFrom_getD (chunks : List Chunk) (d : Chunk) :
    ∀ (l : List (List ℚ)) (i : Nat), i + l.length ≤ chunks.length →
      (enumFrom i l).map (fun p => chunks.getD p.1 d) =
        (chunks.drop i).take l.length := by
  intro l
  induction l with
  | nil => intro i h; simp [enumFrom]
  | cons a as ih =>
    intro i h
    have hi : i < chunks.length := by
      simp only [List.length_cons] at h
      omega
    show chunks.getD i d :: (enumFrom (i + 1) as).map (fun p => chunks.getD p.1 d)
        = (chunks.drop i).take (as.length + 1)
    rw [ih (i + 1) (by simp only [List.length_cons] at h; omega)]
    rw [List.getD_eq_getElem _ _ hi]
    rw [List.drop_eq_getElem_cons hi]
    rfl

/-- Claim C2 (amended): `search` on an empty collection returns `[]`;
`top_k = 0` returns `[]`; a nonnegative `top_k` returns the first
`min top_k n` ranked entries, so a collection smaller than `top_k`
comes back in full (as a permutation of the stored chunks); but a
NEGATIVE `top_k` is a Python slice `similarities[:top_k]`, returning
all but the last `|top_k|` ranked entries rather than an empty
result. -/
theorem search_topk_selection (s : SimpleVectorStore) (q : List ℚ) :
    (s.embeddings = [] → ∀ top_k : Int, s.search q top_k = [])
    ∧ s.search q 0 = []
    ∧ (∀ top_k : Int, 0 ≤ top_k →
        (s.search q top_k).length = min top_k.toNat s.embeddings.length)
    ∧ (∀ top_k : Int, s.chunks.length = s.embeddings.length →
        (s.embeddings.length : Int) ≤ top_k →
        List.Perm ((s.search q top_k).map SearchResult.chunk) s.chunks)
    ∧ (∀ top_k : Int, top_k < 0 →
        (s.search q top_k).length
          = s.embeddings.length - (-top_k).toNat) := by
  refine ⟨?_, ?_, ?_, ?_, ?_⟩
  · intro he top_k
    unfold SimpleVectorStore.search
    rw [if_pos (by rw [he]; rfl)]
  · unfold SimpleVectorStore.search
    by_cases h : s.embeddings.length = 0
    · rw [if_pos h]
    · rw [if_neg h]
      simp [pySliceTo]
  · intro top_k hk
    unfold SimpleVectorStore.search
    by_cases h : s.embeddings.length = 0
    · rw [if_pos h]
      simp [h]
    · rw [if_neg h]
      rw [List.length_map]
      unfold pySliceTo
      rw [if_pos hk]
      rw [List.length_take, sortDesc_length, similaritiesOf_length]
  · intro top_k hpar hk
    by_cases h : s.embeddings.length = 0
    · have hc : s.chunks = [] := List.length_eq_zero.mp (by rw [hpar, h])
      unfold SimpleVectorStore.search
      rw [if_pos h, hc]
      simp
    · unfold SimpleVectorStore.search
      rw [if_neg h]
      have hk0 : (0 : Int) ≤ top_k := by omega
      unfold pySliceTo
      rw [if_pos hk0]
      have hlen : (sortDesc (similaritiesOf s q)).length ≤ top_k.toNat := by
        rw [sortDesc_length, similaritiesOf_length]
        omega
      rw [List.take_of_length_le hlen, List.map_map]
      have heq : (SearchResult.chunk ∘ fun p : Nat × ℝ =>
          (⟨s.chunks.getD p.1 ⟨"", 0, 0, 0⟩, p.2⟩ : SearchResult))
          = fun p : Nat × ℝ => s.chunks.getD p.1 ⟨"", 0, 0, 0⟩ := rfl
      rw [heq]
      refine ((sortDesc_perm (similaritiesOf s q)).map
        (fun p : Nat × ℝ => s.chunks.getD p.1 ⟨"", 0, 0, 0⟩)).trans ?_
      unfold similaritiesOf
      rw [List.map_map]
      have heq2 : ((fun p : Nat × ℝ => s.chunks.getD p.1 ⟨"", 0, 0, 0⟩) ∘
          (fun p : Nat × List ℚ => (p.1, cosine_similarity q p.2)))
          = fun p : Nat × List ℚ => s.chunks.getD p.1 ⟨"", 0, 0, 0⟩ := rfl
      rw [heq2]
      rw [enumFrom_getD s.chunks ⟨"", 0, 0, 0⟩ s.embeddings 0 (by omega)]
      rw [List.drop_zero, ← hpar, List.take_length]
  · intro top_k hk
    unfold SimpleVectorStore.search
    by_cases h : s.embeddings.length = 0
    · rw [if_pos h]
      simp [h]
    · rw [if_neg h]
      rw [List.length_map]
      unfold pySliceTo
      rw [if_neg (by omega : ¬ (0 : Int) ≤ top_k)]
      rw [List.length_take, sortDesc_length, similaritiesOf_length]
      omega

/-- Witness for C2 (amended): a two-vector collection queried with
`top_k = 5` comes back in full. -/
theorem search_topk_selection_witness :
    ((SimpleVectorStore.mk "d" [⟨"a", 0, 0, 1⟩, ⟨"b", 1, 1, 2⟩]
        [[1], [0]]).chunks.length
      = (SimpleVectorStore.mk "d" [⟨"a", 0, 0, 1⟩, ⟨"b", 1, 1, 2⟩]
        [[1], [0]]).embeddings.length
      ∧ ((SimpleVectorStore.mk "d" [⟨"a", 0, 0, 1⟩, ⟨"b", 1, 1, 2⟩]
        [[1], [0]]).embeddings.length : Int) ≤ 5)
    ∧ List.Perm
        (((SimpleVectorStore.mk "d" [⟨"a", 0, 0, 1⟩, ⟨"b", 1, 1, 2⟩]
          [[1], [0]]).search [1] 5).map SearchResult.chunk)
        [⟨"a", 0, 0, 1⟩, ⟨"b", 1, 1, 2⟩] :=
  ⟨⟨by decide, by decide⟩,
    (search_topk_selection
      (SimpleVectorStore.mk "d" [⟨"a", 0, 0, 1⟩, ⟨"b", 1, 1, 2⟩] [[1], [0]])
      [1]).2.2.2.1 5 (by decide) (by decide)⟩

/-- Evaluation helper: for unit-norm vectors the similarity is the dot
product. -/
lemma cosine_similarity_unit (v w : List ℚ) (hv : dotQ v v = 1)
    (hw : dotQ w w = 1) :
    cosine_similarity v w = ((dotQ v w : ℚ) : ℝ) := by
  have hnv : normR v = 1 := by
    unfold normR
    rw [hv]
    simp
  have hnw : normR w = 1 := by
    unfold normR
    rw [hw]
    simp
  unfold cosine_similarity
  rw [hnv, hnw]
  rw [if_neg (by norm_num)]
  norm_num

/-- Counterexample to Claim C2 as stated: the claim says every
`top_k ≤ 0` yields an empty result, but `top_k = -1` on a two-vector
collection is the Python slice `similarities[:-1]` and returns one
result. -/
theorem search_negative_topk_not_empty :
    ((-1 : Int) ≤ 0)
    ∧ ((SimpleVectorStore.mk "d" [⟨"a", 0, 0, 1⟩, ⟨"b", 1, 1, 2⟩]
        [[1], [1]]).search [1] (-1)).length = 1 := by
  constructor
  · decide
  · have hd : dotQ [(1 : ℚ)] [(1 : ℚ)] = 1 := by norm_num [dotQ]
    have hc : cosine_similarity [(1 : ℚ)] [(1 : ℚ)] = 1 := by
      rw [cosine_similarity_unit _ _ hd hd, hd]
      norm_num
    unfold SimpleVectorStore.search
    rw [if_neg (by decide)]
    rw [List.length_map]
    have hsims : similaritiesOf
        (SimpleVectorStore.mk "d" [⟨"a", 0, 0, 1⟩, ⟨"b", 1, 1, 2⟩] [[1], [1]])
        [1] = [(0, (1 : ℝ)), (1, 1)] := by
      unfold similaritiesOf
      show ([(0, [(1 : ℚ)]), (1, [(1 : ℚ)])].map
        (fun p => (p.1, cosine_similarity [1] p.2))) = _
      simp [hc]
    rw [hsims]
    have hsort : sortDesc [(0, (1 : ℝ)), (1, 1)] = [(0, 1), (1, 1)] := by
      norm_num [sortDesc, insertDesc]
    rw [hsort]
    unfold pySliceTo
    rw [if_neg (by decide)]
    norm_num

/-- Claim C3: search ranking is by score descending with ties broken by
original insertion order (the sort is stable), and in the end-to-end
scenario — ingest `["apple pie", "banana bread", "apple pie"]` with
vectors `[1,0], [0,1], [1,0]`, query `[1,0]`, `top_k = 2` — the results
are chunk_index 0 then chunk_index 2, both with score 1.0, ahead of
chunk 1 (score 0.0). -/
theorem search_ranking_stable :
    (∀ (s : SimpleVectorStore) (q : List ℚ),
      List.Pairwise rankRel (sortDesc (similaritiesOf s q)))
    ∧ ((search_document (store_document ⟨[], []⟩ "doc1"
          [⟨"apple pie", 0, 0, 9⟩, ⟨"banana bread", 1, 9, 21⟩,
            ⟨"apple pie", 2, 21, 30⟩]
          [[1, 0], [0, 1], [1, 0]]).1 "doc1" [1, 0] 2).2.map
        SourceOut.chunk_index = [0, 2]
      ∧ (search_document (store_document ⟨[], []⟩ "doc1"
          [⟨"apple pie", 0, 0, 9⟩, ⟨"banana bread", 1, 9, 21⟩,
            ⟨"apple pie", 2, 21, 30⟩]
          [[1, 0], [0, 1], [1, 0]]).1 "doc1" [1, 0] 2).2.map
        SourceOut.score = [1, 1]) := by
  constructor
  · intro s q
    apply sortDesc_pairwise
    unfold similaritiesOf
    exact List.Pairwise.map _ (fun a b h => h) (enumFrom_pairwise s.embeddings 0)
  · have hd11 : dotQ [(1 : ℚ), 0] [(1 : ℚ), 0] = 1 := by norm_num [dotQ]
    have hd01 : dotQ [(0 : ℚ), 1] [(0 : ℚ), 1] = 1 := by norm_num [dotQ]
    have hdx : dotQ [(1 : ℚ), 0] [(0 : ℚ), 1] = 0 := by norm_num [dotQ]
    have hc1 : cosine_similarity [(1 : ℚ), 0] [(1 : ℚ), 0] = 1 := by
      rw [cosine_similarity_unit _ _ hd11 hd11, hd11]
      norm_num
    have hc0 : cosine_similarity [(1 : ℚ), 0] [(0 : ℚ), 1] = 0 := by
      rw [cosine_similarity_unit _ _ hd11 hd01, hdx]
      norm_num
    have hkey : (search_document (store_document ⟨[], []⟩ "doc1"
          [⟨"apple pie", 0, 0, 9⟩, ⟨"banana bread", 1, 9, 21⟩,
            ⟨"apple pie", 2, 21, 30⟩]
          [[1, 0], [0, 1], [1, 0]]).1 "doc1" [1, 0] 2).2 =
        ((SimpleVectorStore.mk "doc1"
          [⟨"apple pie", 0, 0, 9⟩, ⟨"banana bread", 1, 9, 21⟩,
            ⟨"apple pie", 2, 21, 30⟩]
          [[1, 0], [0, 1], [1, 0]]).search [1, 0] 2).map (fun res =>
            ⟨res.chunk.text, res.score, res.chunk.chunk_index,
              (res.chunk.chunk_index, res.chunk.start_char,
                res.chunk.end_char)⟩) := rfl
    have hsims : similaritiesOf (SimpleVectorStore.mk "doc1"
          [⟨"apple pie", 0, 0, 9⟩, ⟨"banana bread", 1, 9, 21⟩,
            ⟨"apple pie", 2, 21, 30⟩]
          [[1, 0], [0, 1], [1, 0]]) [1, 0] =
        [(0, (1 : ℝ)), (1, 0), (2, 1)] := by
      unfold similaritiesOf
      show ([(0, [(1 : ℚ), 0]), (1, [(0 : ℚ), 1]), (2, [(1 : ℚ), 0])].map
        (fun p => (p.1, cosine_similarity [1, 0] p.2))) = _
      simp [hc1, hc0]
    have hsort : sortDesc [(0, (1 : ℝ)), (1, 0), (2, 1)]
        = [(0, 1), (2, 1), (1, 0)] := by
      norm_num [sortDesc, insertDesc]
    have hsearch : (SimpleVectorStore.mk "doc1"
          [⟨"apple pie", 0, 0, 9⟩, ⟨"banana bread", 1, 9, 21⟩,
            ⟨"apple pie", 2, 21, 30⟩]
          [[1, 0], [0, 1], [1, 0]]).search [1, 0] 2 =
        [⟨⟨"apple pie", 0, 0, 9⟩, 1⟩, ⟨⟨"apple pie", 2, 21, 30⟩, 1⟩] := by
      unfold SimpleVectorStore.search
      rw [if_neg (by decide)]
      rw [hsims, hsort]
      unfold pySliceTo
      rw [if_pos (by decide)]
      norm_num [List.getD]
      rfl
    rw [hkey, hsearch]
    constructor
    · rfl
    · rfl
